import Mathlib

/-!
# Verification of the s6i_task core (permission / resources / task_func)

Shallow embedding of `include/s6i_task/permission.h`,
`include/s6i_task/resources.h`, `include/s6i_task/resource_traits.h` and
`include/s6i_task/task_func.h`.

Modelling conventions:
* C++ types are represented by natural-number tags.
* The per-component lazily allocated type-index machinery
  (`TypeIndex<T>::ms_index` together with `gen_type_index`) is explicit
  state: a counter plus a map from type tags to indices, where index `0`
  means "not yet assigned", exactly as in the source.
  `Permission` and `Resources` each instantiate this pattern with their
  own independent state; the shape is identical, so one Lean structure
  serves both.
* Raw pointers are natural-number ids; a nullable pointer is `Option Nat`
  with `none` for `nullptr`.
* `std::bitset<128>` membership is modelled by a `Finset Nat` of set bit
  positions; the capacity bound (`assert(index < BIT_N)` and the bounds
  of `bitset::set`/`test`) is treated separately (see `BIT_N` and the
  capacity theorem).
-/

/-- State of one `TypeIndex`/`gen_type_index` instantiation:
`next` is the value of the static counter inside `gen_type_index`
(last index handed out; indices start at 1), `assigned t` is
`TypeIndex<T>::ms_index` for the type tagged `t` (0 = unassigned). -/
structure TIState where
  next : Nat
  assigned : Nat → Nat

/-- The state at program start: counter 0, nothing assigned. -/
def TIState.init : TIState := ⟨0, fun _ => 0⟩

/-- `gen_type_index`: `return ++index;` — bumps the counter and returns it. -/
def gen_type_index (s : TIState) : Nat × TIState :=
  (s.next + 1, ⟨s.next + 1, s.assigned⟩)

/-- The shared prologue of `set_read_permission`/`set_write_permission`
(and of `Resources::set_ptr`): read `TypeIndex<T>::ms_index`; if it is 0,
allocate a fresh index via `gen_type_index` and store it. Returns the
index used and the updated global state. -/
def type_index (s : TIState) (t : Nat) : Nat × TIState :=
  let index := s.assigned t
  if index = 0 then
    let gi := gen_type_index s
    (gi.1, { gi.2 with assigned := fun u => if u = t then gi.1 else gi.2.assigned u })
  else (index, s)

/-- `Permission::BIT_N = 128`, the fixed bitset capacity. -/
def BIT_N : Nat := 128

/-- `struct Permission`: the two bitsets, as sets of set bit positions. -/
structure Permission where
  read : Finset Nat
  write : Finset Nat

/-- The default-constructed `Permission`: both bitsets all zero. -/
def Permission.empty : Permission := ⟨∅, ∅⟩

/-- `Permission::set_read_permission<T>()`. -/
def set_read_permission (s : TIState) (p : Permission) (t : Nat) :
    TIState × Permission :=
  let r := type_index s t
  (r.2, { p with read := insert r.1 p.read })

/-- `Permission::set_write_permission<T>()`. -/
def set_write_permission (s : TIState) (p : Permission) (t : Nat) :
    TIState × Permission :=
  let r := type_index s t
  (r.2, { p with write := insert r.1 p.write })

/-- `Permission::test_read_permission<T>()`. -/
def test_read_permission (s : TIState) (p : Permission) (t : Nat) : Bool :=
  let index := s.assigned t
  if index = 0 then false else decide (index ∈ p.read)

/-- `Permission::test_write_permission<T>()`. -/
def test_write_permission (s : TIState) (p : Permission) (t : Nat) : Bool :=
  let index := s.assigned t
  if index = 0 then false else decide (index ∈ p.write)

/-- `is_conflict(lhs, rhs)`: three bitset intersections, any bit set. -/
def is_conflict (lhs rhs : Permission) : Bool :=
  decide (lhs.read ∩ rhs.write).Nonempty ||
  decide (lhs.write ∩ rhs.read).Nonempty ||
  decide (lhs.write ∩ rhs.write).Nonempty

/-- Claim C1: `is_conflict(lhs, rhs)` is true exactly when the union of
`lhs.read ∩ rhs.write`, `lhs.write ∩ rhs.read` and `lhs.write ∩ rhs.write`
is non-empty, and consequently `is_conflict` is commutative. -/
theorem is_conflict_spec (lhs rhs : Permission) :
    (is_conflict lhs rhs = true ↔
      ((lhs.read ∩ rhs.write) ∪ (lhs.write ∩ rhs.read) ∪
        (lhs.write ∩ rhs.write)).Nonempty) ∧
    is_conflict lhs rhs = is_conflict rhs lhs := by
  constructor
  · simp [is_conflict, Finset.Nonempty, Finset.mem_union, exists_or, or_assoc]
  · rw [Bool.eq_iff_iff]
    simp only [is_conflict, Bool.or_eq_true, decide_eq_true_eq]
    rw [Finset.inter_comm lhs.read, Finset.inter_comm lhs.write rhs.read,
      Finset.inter_comm lhs.write rhs.write]
    tauto

/-! ## Parameter shapes and permission derivation (`resource_traits.h`, `make_permission`) -/

/-- A task-callable parameter shape: `T*` (mutable pointer) or
`const T*` (pointer to const), with `t` the tag of the pointee type. -/
inductive Param where
  | mut_ptr (t : Nat)
  | const_ptr (t : Nat)
deriving DecidableEq

/-- `ResourceTraits<...>::read_permission`: the type list contributing
read bits — `TypeList<T>` for both `T*` and `const T*`. -/
def read_permission_list : Param → List Nat
  | .mut_ptr t => [t]
  | .const_ptr t => [t]

/-- `ResourceTraits<...>::write_permission`: the type list contributing
write bits — `TypeList<T>` for `T*`, the empty list for `const T*`. -/
def write_permission_list : Param → List Nat
  | .mut_ptr t => [t]
  | .const_ptr _ => []

/-- `detail::set_read_permission(permission, TypeList<Ts...>)`: the fold
expression setting the read bit for each type of the list in order. -/
def set_read_permission_all (s : TIState) (p : Permission) :
    List Nat → TIState × Permission
  | [] => (s, p)
  | t :: ts =>
    let a := set_read_permission s p t
    set_read_permission_all a.1 a.2 ts

/-- `detail::set_write_permission(permission, TypeList<Ts...>)`. -/
def set_write_permission_all (s : TIState) (p : Permission) :
    List Nat → TIState × Permission
  | [] => (s, p)
  | t :: ts =>
    let a := set_write_permission s p t
    set_write_permission_all a.1 a.2 ts

/-- The first fold expression of `make_permission<Ts...>`: for each
parameter, set the read bits of its `read_permission` list. -/
def make_permission_reads (s : TIState) (p : Permission) :
    List Param → TIState × Permission
  | [] => (s, p)
  | q :: qs =>
    let a := set_read_permission_all s p (read_permission_list q)
    make_permission_reads a.1 a.2 qs

/-- The second fold expression of `make_permission<Ts...>`: for each
parameter, set the write bits of its `write_permission` list. -/
def make_permission_writes (s : TIState) (p : Permission) :
    List Param → TIState × Permission
  | [] => (s, p)
  | q :: qs =>
    let a := set_write_permission_all s p (write_permission_list q)
    make_permission_writes a.1 a.2 qs

/-- `make_permission<Ts...>()`: default-construct a permission, run the
read fold over all parameters, then the write fold over all parameters. -/
def make_permission (s : TIState) (ps : List Param) : TIState × Permission :=
  let a := make_permission_reads s Permission.empty ps
  make_permission_writes a.1 a.2 ps

/-! ## Well-formedness of the type-index state, and a characterization
invariant for permission construction -/

/-- Well-formedness of a type-index state: no assigned index exceeds the
counter, and distinct types never share a nonzero index. Holds at
`TIState.init` and is preserved by every allocation. -/
def TIWf (s : TIState) : Prop :=
  (∀ t, s.assigned t ≤ s.next) ∧
  ∀ u v, s.assigned u ≠ 0 → s.assigned u = s.assigned v → u = v

theorem tiwf_init : TIWf TIState.init :=
  ⟨fun _ => Nat.le_refl 0, fun _ _ h _ => absurd rfl h⟩

/-- Shape of `type_index` on the allocation branch. -/
theorem type_index_eq_fresh (s : TIState) (t : Nat) (h0 : s.assigned t = 0) :
    type_index s t =
      (s.next + 1,
        ⟨s.next + 1, fun u => if u = t then s.next + 1 else s.assigned u⟩) := by
  simp [type_index, gen_type_index, h0]

/-- Shape of `type_index` on the reuse branch. -/
theorem type_index_eq_reuse (s : TIState) (t : Nat) (h0 : s.assigned t ≠ 0) :
    type_index s t = (s.assigned t, s) := by
  simp [type_index, h0]

theorem type_index_assigned_self (s : TIState) (t : Nat) :
    (type_index s t).2.assigned t = (type_index s t).1 := by
  by_cases h : s.assigned t = 0
  · rw [type_index_eq_fresh s t h]; simp
  · rw [type_index_eq_reuse s t h]

theorem type_index_assigned_ne (s : TIState) (t u : Nat) (h : u ≠ t) :
    (type_index s t).2.assigned u = s.assigned u := by
  by_cases h0 : s.assigned t = 0
  · rw [type_index_eq_fresh s t h0]; simp [h]
  · rw [type_index_eq_reuse s t h0]

theorem type_index_ne_zero (s : TIState) (t : Nat) : (type_index s t).1 ≠ 0 := by
  by_cases h0 : s.assigned t = 0
  · rw [type_index_eq_fresh s t h0]; simp
  · rw [type_index_eq_reuse s t h0]; exact h0

theorem type_index_next_mono (s : TIState) (t : Nat) :
    s.next ≤ (type_index s t).2.next := by
  by_cases h0 : s.assigned t = 0
  · rw [type_index_eq_fresh s t h0]; exact Nat.le_succ _
  · rw [type_index_eq_reuse s t h0]

theorem type_index_le_next (s : TIState) (t : Nat) (hwf : TIWf s) :
    (type_index s t).1 ≤ (type_index s t).2.next := by
  by_cases h0 : s.assigned t = 0
  · rw [type_index_eq_fresh s t h0]
  · rw [type_index_eq_reuse s t h0]; exact hwf.1 t

theorem type_index_wf (s : TIState) (t : Nat) (hwf : TIWf s) :
    TIWf (type_index s t).2 := by
  obtain ⟨hb, hinj⟩ := hwf
  by_cases h0 : s.assigned t = 0
  · rw [type_index_eq_fresh s t h0]
    refine ⟨fun u => ?_, fun u v hu huv => ?_⟩
    · dsimp only
      by_cases hut : u = t
      · simp [hut]
      · rw [if_neg hut]; exact Nat.le_succ_of_le (hb u)
    · dsimp only at hu huv
      by_cases hut : u = t <;> by_cases hvt : v = t
      · rw [hut, hvt]
      · rw [if_pos hut, if_neg hvt] at huv
        have := hb v; omega
      · rw [if_neg hut, if_pos hvt] at huv
        have := hb u; omega
      · rw [if_neg hut] at hu huv; rw [if_neg hvt] at huv
        exact hinj u v hu huv
  · rw [type_index_eq_reuse s t h0]; exact ⟨hb, hinj⟩

/-- Invariant tying a permission under construction to semantic read and
write sets `R` and `W` over type tags. -/
structure PermInv (s : TIState) (p : Permission) (R W : Nat → Prop) : Prop where
  wf : TIWf s
  readc : ∀ u, test_read_permission s p u = true ↔ R u
  writec : ∀ u, test_write_permission s p u = true ↔ W u
  rbound : ∀ i ∈ p.read, i ≤ s.next
  wbound : ∀ i ∈ p.write, i ≤ s.next

theorem perm_inv_congr {s : TIState} {p : Permission} {R W R' W' : Nat → Prop}
    (hR : ∀ u, R u ↔ R' u) (hW : ∀ u, W u ↔ W' u)
    (h : PermInv s p R W) : PermInv s p R' W' :=
  ⟨h.wf, fun u => (h.readc u).trans (hR u), fun u => (h.writec u).trans (hW u),
    h.rbound, h.wbound⟩

theorem perm_inv_empty (s : TIState) (hwf : TIWf s) :
    PermInv s Permission.empty (fun _ => False) (fun _ => False) := by
  refine ⟨hwf, fun u => ?_, fun u => ?_, by simp [Permission.empty],
    by simp [Permission.empty]⟩ <;>
  · simp only [test_read_permission, test_write_permission, Permission.empty]
    by_cases h : s.assigned u = 0 <;> simp [h]

theorem test_read_eq (s : TIState) (p : Permission) (u : Nat) :
    test_read_permission s p u = true ↔
      s.assigned u ≠ 0 ∧ s.assigned u ∈ p.read := by
  simp only [test_read_permission]
  by_cases h : s.assigned u = 0 <;> simp [h]

theorem test_write_eq (s : TIState) (p : Permission) (u : Nat) :
    test_write_permission s p u = true ↔
      s.assigned u ≠ 0 ∧ s.assigned u ∈ p.write := by
  simp only [test_write_permission]
  by_cases h : s.assigned u = 0 <;> simp [h]

/-- A nonzero index already assigned to a type other than `t` is never the
index `type_index` uses for `t`. -/
theorem assigned_ne_type_index (s : TIState) (t u : Nat) (hwf : TIWf s)
    (hut : u ≠ t) (hd : s.assigned u ≠ 0) :
    s.assigned u ≠ (type_index s t).1 := by
  by_cases h0 : s.assigned t = 0
  · rw [type_index_eq_fresh s t h0]
    have := hwf.1 u
    dsimp only
    omega
  · rw [type_index_eq_reuse s t h0]
    exact fun h => hut (hwf.2 u t hd h)

/-- A freshly allocated index lies outside any set bounded by the old
counter. -/
theorem type_index_fresh_not_mem (s : TIState) (t : Nat) {A : Finset Nat}
    (hA : ∀ j ∈ A, j ≤ s.next) (h0 : s.assigned t = 0) :
    (type_index s t).1 ∉ A := by
  rw [type_index_eq_fresh s t h0]
  intro h
  have := hA _ h
  omega

theorem perm_step_read {s : TIState} {p : Permission} {R W : Nat → Prop}
    (t : Nat) (h : PermInv s p R W) :
    PermInv (set_read_permission s p t).1 (set_read_permission s p t).2
      (fun u => R u ∨ u = t) W := by
  obtain ⟨hwf, hr, hw, hrb, hwb⟩ := h
  simp only [set_read_permission]
  refine ⟨type_index_wf s t hwf, fun u => ?_, fun u => ?_,
    fun j hj => ?_, fun j hj => ?_⟩
  · rw [test_read_eq]
    dsimp only
    by_cases hut : u = t
    · subst hut
      rw [type_index_assigned_self]
      simp [type_index_ne_zero s u]
    · rw [type_index_assigned_ne s t u hut]
      simp only [test_read_eq] at hr
      simp only [Finset.mem_insert]
      rw [← hr u]
      constructor
      · rintro ⟨hne, hmem | hmem⟩
        · exact absurd hmem (assigned_ne_type_index s t u hwf hut hne)
        · exact Or.inl ⟨hne, hmem⟩
      · rintro (⟨hne, hmem⟩ | heq)
        · exact ⟨hne, Or.inr hmem⟩
        · exact absurd heq hut
  · rw [test_write_eq]
    dsimp only
    simp only [test_write_eq] at hw
    by_cases hut : u = t
    · subst hut
      rw [type_index_assigned_self]
      by_cases h0 : s.assigned u = 0
      · have hi := type_index_fresh_not_mem s u hwb h0
        rw [← hw u]
        simp [h0, hi]
      · rw [type_index_eq_reuse s u h0]
        exact hw u
    · rw [type_index_assigned_ne s t u hut]
      exact hw u
  · simp only [Finset.mem_insert] at hj
    rcases hj with rfl | hj
    · exact type_index_le_next s t hwf
    · exact le_trans (hrb j hj) (type_index_next_mono s t)
  · exact le_trans (hwb j hj) (type_index_next_mono s t)

theorem perm_step_write {s : TIState} {p : Permission} {R W : Nat → Prop}
    (t : Nat) (h : PermInv s p R W) :
    PermInv (set_write_permission s p t).1 (set_write_permission s p t).2
      R (fun u => W u ∨ u = t) := by
  obtain ⟨hwf, hr, hw, hrb, hwb⟩ := h
  simp only [set_write_permission]
  refine ⟨type_index_wf s t hwf, fun u => ?_, fun u => ?_,
    fun j hj => ?_, fun j hj => ?_⟩
  · rw [test_read_eq]
    dsimp only
    simp only [test_read_eq] at hr
    by_cases hut : u = t
    · subst hut
      rw [type_index_assigned_self]
      by_cases h0 : s.assigned u = 0
      · have hi := type_index_fresh_not_mem s u hrb h0
        rw [← hr u]
        simp [h0, hi]
      · rw [type_index_eq_reuse s u h0]
        exact hr u
    · rw [type_index_assigned_ne s t u hut]
      exact hr u
  · rw [test_write_eq]
    dsimp only
    by_cases hut : u = t
    · subst hut
      rw [type_index_assigned_self]
      simp [type_index_ne_zero s u]
    · rw [type_index_assigned_ne s t u hut]
      simp only [test_write_eq] at hw
      simp only [Finset.mem_insert]
      rw [← hw u]
      constructor
      · rintro ⟨hne, hmem | hmem⟩
        · exact absurd hmem (assigned_ne_type_index s t u hwf hut hne)
        · exact Or.inl ⟨hne, hmem⟩
      · rintro (⟨hne, hmem⟩ | heq)
        · exact ⟨hne, Or.inr hmem⟩
        · exact absurd heq hut
  · exact le_trans (hrb j hj) (type_index_next_mono s t)
  · simp only [Finset.mem_insert] at hj
    rcases hj with rfl | hj
    · exact type_index_le_next s t hwf
    · exact le_trans (hwb j hj) (type_index_next_mono s t)

theorem perm_all_read {s : TIState} {p : Permission} {R W : Nat → Prop}
    (ts : List Nat) (h : PermInv s p R W) :
    PermInv (set_read_permission_all s p ts).1
      (set_read_permission_all s p ts).2 (fun u => R u ∨ u ∈ ts) W := by
  induction ts generalizing s p R with
  | nil => exact perm_inv_congr (by simp) (fun _ => Iff.rfl) h
  | cons t ts ih =>
    simp only [set_read_permission_all]
    exact perm_inv_congr (fun u => by simp [List.mem_cons, or_assoc])
      (fun _ => Iff.rfl) (ih (perm_step_read t h))

theorem perm_all_write {s : TIState} {p : Permission} {R W : Nat → Prop}
    (ts : List Nat) (h : PermInv s p R W) :
    PermInv (set_write_permission_all s p ts).1
      (set_write_permission_all s p ts).2 R (fun u => W u ∨ u ∈ ts) := by
  induction ts generalizing s p W with
  | nil => exact perm_inv_congr (fun _ => Iff.rfl) (by simp) h
  | cons t ts ih =>
    simp only [set_write_permission_all]
    exact perm_inv_congr (fun _ => Iff.rfl)
      (fun u => by simp [List.mem_cons, or_assoc]) (ih (perm_step_write t h))

theorem perm_reads_phase {s : TIState} {p : Permission} {R W : Nat → Prop}
    (ps : List Param) (h : PermInv s p R W) :
    PermInv (make_permission_reads s p ps).1 (make_permission_reads s p ps).2
      (fun u => R u ∨ ∃ q ∈ ps, u ∈ read_permission_list q) W := by
  induction ps generalizing s p R with
  | nil => exact perm_inv_congr (by simp) (fun _ => Iff.rfl) h
  | cons q qs ih =>
    simp only [make_permission_reads]
    exact perm_inv_congr (fun u => by simp [or_assoc]) (fun _ => Iff.rfl)
      (ih (perm_all_read _ h))

theorem perm_writes_phase {s : TIState} {p : Permission} {R W : Nat → Prop}
    (ps : List Param) (h : PermInv s p R W) :
    PermInv (make_permission_writes s p ps).1 (make_permission_writes s p ps).2
      R (fun u => W u ∨ ∃ q ∈ ps, u ∈ write_permission_list q) := by
  induction ps generalizing s p W with
  | nil => exact perm_inv_congr (fun _ => Iff.rfl) (by simp) h
  | cons q qs ih =>
    simp only [make_permission_writes]
    exact perm_inv_congr (fun _ => Iff.rfl) (fun u => by simp [or_assoc])
      (ih (perm_all_write _ h))

/-- Full characterization of `make_permission`: starting from a
well-formed type-index state, the derived permission's read bit of a type
is set exactly when some parameter mentions the type, and its write bit
exactly when some parameter contributes it to a `write_permission` list
(i.e. mentions it mutably). -/
theorem make_permission_inv (s : TIState) (ps : List Param) (hwf : TIWf s) :
    PermInv (make_permission s ps).1 (make_permission s ps).2
      (fun u => ∃ q ∈ ps, u ∈ read_permission_list q)
      (fun u => ∃ q ∈ ps, u ∈ write_permission_list q) := by
  simp only [make_permission]
  exact perm_inv_congr (by simp) (by simp)
    (perm_writes_phase ps (perm_reads_phase ps (perm_inv_empty s hwf)))

/-- Claim C2: for a callable whose parameter list contains a `T1*`
parameter and a `const T2*` parameter, the permission built by
`make_permission` at binding construction has read and write set for
`T1`, and read but not write for `T2` (for a `T2` that no parameter
passes mutably); marks accumulate per type identity, so a type `T3`
appearing both as a const and as a mutable pointer parameter ends with
both bits set. -/
theorem make_permission_derivation (s : TIState) (ps : List Param)
    (T1 T2 T3 : Nat) (hwf : TIWf s)
    (h1 : Param.mut_ptr T1 ∈ ps) (h2 : Param.const_ptr T2 ∈ ps)
    (h2m : Param.mut_ptr T2 ∉ ps)
    (h3m : Param.mut_ptr T3 ∈ ps) (h3c : Param.const_ptr T3 ∈ ps) :
    test_read_permission (make_permission s ps).1 (make_permission s ps).2 T1
      = true ∧
    test_write_permission (make_permission s ps).1 (make_permission s ps).2 T1
      = true ∧
    test_read_permission (make_permission s ps).1 (make_permission s ps).2 T2
      = true ∧
    test_write_permission (make_permission s ps).1 (make_permission s ps).2 T2
      = false ∧
    test_read_permission (make_permission s ps).1 (make_permission s ps).2 T3
      = true ∧
    test_write_permission (make_permission s ps).1 (make_permission s ps).2 T3
      = true := by
  have inv := make_permission_inv s ps hwf
  refine ⟨?_, ?_, ?_, ?_, ?_, ?_⟩
  · exact (inv.readc T1).mpr ⟨_, h1, by simp [read_permission_list]⟩
  · exact (inv.writec T1).mpr ⟨_, h1, by simp [write_permission_list]⟩
  · exact (inv.readc T2).mpr ⟨_, h2, by simp [read_permission_list]⟩
  · refine Bool.eq_false_iff.mpr fun hc => ?_
    obtain ⟨q, hq, hmem⟩ := (inv.writec T2).mp hc
    cases q with
    | mut_ptr t =>
      simp only [write_permission_list, List.mem_singleton] at hmem
      subst hmem
      exact h2m hq
    | const_ptr t => simp [write_permission_list] at hmem
  · exact (inv.readc T3).mpr ⟨_, h3c, by simp [read_permission_list]⟩
  · exact (inv.writec T3).mpr ⟨_, h3m, by simp [write_permission_list]⟩

/-- A concrete parameter list: `f(T1*, const T2*, T3*, const T3*)` with
type tags 1, 2, 3. -/
def c2_params : List Param :=
  [.mut_ptr 1, .const_ptr 2, .mut_ptr 3, .const_ptr 3]

theorem make_permission_derivation_witness :
    test_read_permission (make_permission TIState.init c2_params).1
      (make_permission TIState.init c2_params).2 1 = true ∧
    test_write_permission (make_permission TIState.init c2_params).1
      (make_permission TIState.init c2_params).2 1 = true ∧
    test_read_permission (make_permission TIState.init c2_params).1
      (make_permission TIState.init c2_params).2 2 = true ∧
    test_write_permission (make_permission TIState.init c2_params).1
      (make_permission TIState.init c2_params).2 2 = false ∧
    test_read_permission (make_permission TIState.init c2_params).1
      (make_permission TIState.init c2_params).2 3 = true ∧
    test_write_permission (make_permission TIState.init c2_params).1
      (make_permission TIState.init c2_params).2 3 = true :=
  make_permission_derivation TIState.init c2_params 1 2 3 tiwf_init
    (by decide) (by decide) (by decide) (by decide) (by decide)

/-- Claim C8: exceeding the fixed bitset capacity is a contract violation
guarded by `assert(index < BIT_N)`; under the precondition that fewer
than 128 distinct types are ever assigned a permission type index (at
most 127 assigned so far — `s.next ≤ 127` — and one more may be assigned
now only if that keeps the total below 128), the index used by
`set_read_permission`/`set_write_permission` satisfies the assertion, the
index probed by the test functions is in bounds, and every bit position
of the resulting bitsets stays below `BIT_N`. -/
theorem capacity_assert_holds (s : TIState) (p : Permission) (t i j : Nat)
    (hwf : TIWf s) (hcap : s.next ≤ 127)
    (hfresh : s.assigned t = 0 → s.next < 127)
    (hpr : ∀ k ∈ p.read, k < BIT_N)
    (hpw : ∀ k ∈ p.write, k < BIT_N)
    (hi : i ∈ (set_read_permission s p t).2.read)
    (hj : j ∈ (set_write_permission s p t).2.write) :
    (type_index s t).1 < BIT_N ∧ s.assigned t < BIT_N ∧
    i < BIT_N ∧ j < BIT_N := by
  have hidx : (type_index s t).1 < BIT_N := by
    by_cases h0 : s.assigned t = 0
    · rw [type_index_eq_fresh s t h0]
      have := hfresh h0
      simp only [BIT_N]
      omega
    · rw [type_index_eq_reuse s t h0]
      have := hwf.1 t
      simp only [BIT_N]
      omega
  refine ⟨hidx, ?_, ?_, ?_⟩
  · have := hwf.1 t
    simp only [BIT_N]
    omega
  · simp only [set_read_permission, Finset.mem_insert] at hi
    rcases hi with rfl | hi
    · exact hidx
    · exact hpr i hi
  · simp only [set_write_permission, Finset.mem_insert] at hj
    rcases hj with rfl | hj
    · exact hidx
    · exact hpw j hj

theorem capacity_assert_holds_witness :
    (type_index TIState.init 0).1 < BIT_N ∧
    TIState.init.assigned 0 < BIT_N ∧
    1 < BIT_N ∧ 1 < BIT_N :=
  capacity_assert_holds TIState.init Permission.empty 0 1 1 tiwf_init
    (by decide) (fun _ => by decide) (by decide) (by decide)
    (by decide) (by decide)

/-! ## The resource registry (`resources.h`)

`Resources` has its own independent `TypeIndex`/`gen_type_index`
instantiation; its state is again a `TIState`. A registry instance is its
two vectors: `m_pointers` (slots of nullable pointers, slot 0 unused) and
`m_resources` (ids of the owned values, in construction order; an entry
stands for the `UniquePtr<IResource>` whose destruction destroys that
value). -/
structure Resources where
  pointers : List (Option Nat)
  owned : List Nat
deriving DecidableEq

/-- A default-initialized registry: both vectors empty. -/
def Resources.init : Resources := ⟨[], []⟩

/-- `Resources::get_ptr<T>()`: null if the type has no index or the index
is outside the live table, otherwise the stored pointer. -/
def get_ptr (s : TIState) (r : Resources) (t : Nat) : Option Nat :=
  let index := s.assigned t
  if index = 0 ∨ r.pointers.length ≤ index then none
  else (r.pointers[index]?).getD none

/-- `Resources::get_ptr<T>()` with the final table access left as a
checked raw access: `none` would mean an out-of-bounds read of
`m_pointers[index]`, `some v` a successful evaluation returning `v`.
Used to state that the guard makes `get_ptr` total. -/
def get_ptr_checked (s : TIState) (r : Resources) (t : Nat) :
    Option (Option Nat) :=
  let index := s.assigned t
  if index = 0 ∨ r.pointers.length ≤ index then some none
  else r.pointers[index]?

/-- `Resources::set_ptr<T>(ptr)`: allocate the type's index if needed,
grow the table to `index + 1` (new slots value-initialized to null) if it
is too short, store the pointer in the slot. -/
def set_ptr (s : TIState) (r : Resources) (t : Nat) (ptr : Nat) :
    TIState × Resources :=
  let a := type_index s t
  let grown :=
    if r.pointers.length ≤ a.1 then
      r.pointers ++ List.replicate (a.1 + 1 - r.pointers.length) none
    else r.pointers
  (a.2, { r with pointers := grown.set a.1 (some ptr) })

/-- `Resources::set<T>(value)`: construct an owned copy (a fresh value id
`vid` stands for the address of the `Resource<T>` the allocator returns),
append it to `m_resources`, then publish it via `set_ptr`. -/
def Resources.set (s : TIState) (r : Resources) (t : Nat) (vid : Nat) :
    TIState × Resources :=
  let r1 := { r with owned := r.owned ++ [vid] }
  set_ptr s r1 t vid

/-- `Resources::emplace<T>(args...)`: identical to `set` except that the
owned value is constructed in place from `args...`. -/
def Resources.emplace (s : TIState) (r : Resources) (t : Nat) (vid : Nat) :
    TIState × Resources :=
  let r1 := { r with owned := r.owned ++ [vid] }
  set_ptr s r1 t vid

/-- `Resources::set` when the allocator may refuse the construction
request: `t9_mem::make_unique` yields null on allocation failure, the
`assert(resource)` contract violation fires before any registry state is
touched, so no state results (`none`). -/
def Resources.set_checked (s : TIState) (r : Resources) (t vid : Nat)
    (alloc_ok : Bool) : Option (TIState × Resources) :=
  if alloc_ok then some (Resources.set s r t vid) else none

/-- `Resources::emplace` under the same allocator-failure model. -/
def Resources.emplace_checked (s : TIState) (r : Resources) (t vid : Nat)
    (alloc_ok : Bool) : Option (TIState × Resources) :=
  if alloc_ok then some (Resources.emplace s r t vid) else none

/-- `Resources::~Resources()`: `while (!m_resources.empty())
m_resources.pop_back();` — returns the ids of the owned values in the
order their destructors run. -/
def destroy_all (l : List Nat) : List Nat :=
  match l with
  | [] => []
  | a :: as => (a :: as).getLast (List.cons_ne_nil a as) ::
      destroy_all ((a :: as).dropLast)
termination_by l.length
decreasing_by simp [List.length_dropLast]

/-- `Resources::Resources(Resources&&)`: the vectors are moved, leaving
the source's vectors empty; result is (moved-to, moved-from). -/
def move_ctor (r : Resources) : Resources × Resources :=
  (⟨r.pointers, r.owned⟩, ⟨[], []⟩)

/-- `Resources::swap`: exchanges the two registries' contents. -/
def Resources.swap (a b : Resources) : Resources × Resources := (b, a)

/-- Observable events during a move assignment: `adopt` marks the swap
that publishes the source's bindings into the target, `destroy vid` the
destruction of an owned value. -/
inductive MoveEvent where
  | adopt
  | destroy (vid : Nat)
deriving DecidableEq

/-- `Resources::operator=(Resources&&)`:
`Resources(std::move(other)).swap(*this);` — a temporary is
move-constructed from `other` (emptying it), swapped with `*this`, and
destroyed at the end of the statement, destroying the target's old owned
values. Returns (new target, new source, event trace in program order). -/
def move_assign (target source : Resources) :
    Resources × Resources × List MoveEvent :=
  let m := move_ctor source
  let sw := Resources.swap target m.1
  (sw.1, m.2, MoveEvent.adopt :: (destroy_all sw.2.owned).map MoveEvent.destroy)

/-- A registry mutation: `set`, `emplace` or `set_ptr`, with the type tag
and the pointer or owned-value id it registers. -/
inductive RegOp where
  | set_op (t vid : Nat)
  | emplace_op (t vid : Nat)
  | set_ptr_op (t ptr : Nat)
deriving DecidableEq

/-- Run one registry mutation. -/
def run_op (s : TIState) (r : Resources) : RegOp → TIState × Resources
  | .set_op t vid => Resources.set s r t vid
  | .emplace_op t vid => Resources.emplace s r t vid
  | .set_ptr_op t ptr => set_ptr s r t ptr

/-- Run a sequence of registry mutations in order. -/
def run_ops (s : TIState) (r : Resources) : List RegOp → TIState × Resources
  | [] => (s, r)
  | op :: ops =>
    let a := run_op s r op
    run_ops a.1 a.2 ops

/-- The type tag an operation registers under. -/
def op_ty : RegOp → Nat
  | .set_op t _ => t
  | .emplace_op t _ => t
  | .set_ptr_op t _ => t

/-- The owned values an operation constructs (in construction order). -/
def owned_of : RegOp → List Nat
  | .set_op _ vid => [vid]
  | .emplace_op _ vid => [vid]
  | .set_ptr_op _ _ => []

/-- `op` registers pointer/value `ptr` under type `t` (by any of the three
registration entry points). -/
def registers (op : RegOp) (t ptr : Nat) : Prop :=
  op = .set_op t ptr ∨ op = .emplace_op t ptr ∨ op = .set_ptr_op t ptr

instance (op : RegOp) (t ptr : Nat) : Decidable (registers op t ptr) := by
  unfold registers
  infer_instance

theorem destroy_all_nil : destroy_all [] = [] := by
  simp [destroy_all]

theorem destroy_all_ne_nil (l : List Nat) (h : l ≠ []) :
    destroy_all l = l.getLast h :: destroy_all l.dropLast := by
  cases l with
  | nil => exact absurd rfl h
  | cons a as => rw [destroy_all]

/-- The pop-back loop of the destructor destroys the owned values in
reverse construction order. -/
theorem destroy_all_eq_reverse (l : List Nat) : destroy_all l = l.reverse := by
  induction l using List.reverseRecOn with
  | nil => exact destroy_all_nil
  | append_singleton xs x ih =>
    rw [destroy_all_ne_nil (xs ++ [x]) (by simp)]
    simp [List.getLast_append, ih]

/-- Effect of `set_ptr` on subsequent lookups: the registered type's slot
now holds the new pointer, every other type's lookup is unchanged. -/
theorem get_ptr_set_ptr (s : TIState) (r : Resources) (t ptr u : Nat)
    (hwf : TIWf s) :
    get_ptr (set_ptr s r t ptr).1 (set_ptr s r t ptr).2 u =
      if u = t then some ptr else get_ptr s r u := by
  have hi0 : (type_index s t).1 ≠ 0 := type_index_ne_zero s t
  simp only [set_ptr, get_ptr]
  by_cases hut : u = t
  · subst hut
    rw [type_index_assigned_self]
    by_cases hg : r.pointers.length ≤ (type_index s u).1
    · have hlen : (r.pointers ++
          List.replicate ((type_index s u).1 + 1 - r.pointers.length)
            none).length = (type_index s u).1 + 1 := by
        simp
        omega
      simp only [if_pos hg, if_pos rfl, List.length_set, hlen]
      rw [if_neg (by omega)]
      rw [List.getElem?_set_self (by omega)]
      rfl
    · simp only [if_neg hg, if_pos rfl, List.length_set]
      rw [if_neg (by omega)]
      rw [List.getElem?_set_self (by omega)]
      rfl
  · rw [type_index_assigned_ne s t u hut, if_neg hut]
    by_cases hd0 : s.assigned u = 0
    · simp [hd0]
    · have hdne : s.assigned u ≠ (type_index s t).1 :=
        assigned_ne_type_index s t u hwf hut hd0
      by_cases hdlt : s.assigned u < r.pointers.length
      · have hor : ¬(s.assigned u = 0 ∨
            r.pointers.length ≤ s.assigned u) := by omega
        by_cases hg : r.pointers.length ≤ (type_index s t).1
        · have hor2 : ¬(s.assigned u = 0 ∨
              (r.pointers ++
                List.replicate ((type_index s t).1 + 1 - r.pointers.length)
                  none).length ≤ s.assigned u) := by
            simp only [List.length_append, List.length_replicate]
            omega
          simp only [if_pos hg, List.length_set, if_neg hor2, if_neg hor]
          rw [List.getElem?_set_ne (fun h => hdne h.symm),
            List.getElem?_append_left hdlt]
        · simp only [if_neg hg, List.length_set, if_neg hor]
          rw [List.getElem?_set_ne (fun h => hdne h.symm)]
      · have hor : s.assigned u = 0 ∨
            r.pointers.length ≤ s.assigned u := by omega
        rw [if_pos hor]
        by_cases hg : r.pointers.length ≤ (type_index s t).1
        · by_cases hin : s.assigned u ≤ (type_index s t).1
          · have hor2 : ¬(s.assigned u = 0 ∨
                (r.pointers ++
                  List.replicate ((type_index s t).1 + 1 - r.pointers.length)
                    none).length ≤ s.assigned u) := by
              simp only [List.length_append, List.length_replicate]
              omega
            simp only [if_pos hg, List.length_set, if_neg hor2]
            rw [List.getElem?_set_ne (fun h => hdne h.symm),
              List.getElem?_append_right (by omega),
              List.getElem?_replicate, if_pos (by omega)]
            rfl
          · have hor2 : s.assigned u = 0 ∨
                (r.pointers ++
                  List.replicate ((type_index s t).1 + 1 - r.pointers.length)
                    none).length ≤ s.assigned u := by
              simp only [List.length_append, List.length_replicate]
              omega
            simp only [if_pos hg, List.length_set, if_pos hor2]
        · have hor2 : s.assigned u = 0 ∨ r.pointers.length ≤ s.assigned u := hor
          simp only [if_neg hg, List.length_set, if_pos hor2]

theorem get_ptr_set (s : TIState) (r : Resources) (t vid u : Nat)
    (hwf : TIWf s) :
    get_ptr (Resources.set s r t vid).1 (Resources.set s r t vid).2 u =
      if u = t then some vid else get_ptr s r u := by
  simp only [Resources.set]
  rw [get_ptr_set_ptr _ _ _ _ _ hwf]
  rfl

theorem get_ptr_emplace (s : TIState) (r : Resources) (t vid u : Nat)
    (hwf : TIWf s) :
    get_ptr (Resources.emplace s r t vid).1 (Resources.emplace s r t vid).2 u =
      if u = t then some vid else get_ptr s r u := by
  simp only [Resources.emplace]
  rw [get_ptr_set_ptr _ _ _ _ _ hwf]
  rfl

theorem run_op_wf (s : TIState) (r : Resources) (op : RegOp)
    (hwf : TIWf s) : TIWf (run_op s r op).1 := by
  cases op <;>
    simp only [run_op, Resources.set, Resources.emplace, set_ptr] <;>
    exact type_index_wf s _ hwf

theorem get_ptr_run_op (s : TIState) (r : Resources) (t b : Nat) (op : RegOp)
    (hreg : registers op t b) (hwf : TIWf s) :
    get_ptr (run_op s r op).1 (run_op s r op).2 t = some b := by
  rcases hreg with rfl | rfl | rfl <;>
    simp only [run_op, Resources.set, Resources.emplace] <;>
    rw [get_ptr_set_ptr _ _ _ _ _ hwf] <;> simp

theorem run_op_owned (s : TIState) (r : Resources) (op : RegOp) :
    (run_op s r op).2.owned = r.owned ++ owned_of op := by
  cases op <;>
    simp [run_op, Resources.set, Resources.emplace, set_ptr, owned_of]

theorem run_ops_owned (s : TIState) (r : Resources) (l : List RegOp) :
    (run_ops s r l).2.owned = r.owned ++ (l.map owned_of).flatten := by
  induction l generalizing s r with
  | nil => simp [run_ops]
  | cons op ops ih =>
    simp only [run_ops, List.map_cons, List.flatten_cons]
    rw [ih, run_op_owned, List.append_assoc]

theorem run_op_assigned_ne (s : TIState) (r : Resources) (op : RegOp)
    (u : Nat) (h : op_ty op ≠ u) :
    (run_op s r op).1.assigned u = s.assigned u := by
  cases op <;>
    simp only [run_op, Resources.set, Resources.emplace, set_ptr, op_ty]
      at h ⊢ <;>
    exact type_index_assigned_ne s _ u (Ne.symm h)

theorem run_ops_assigned_ne (s : TIState) (r : Resources) (l : List RegOp)
    (u : Nat) (h : ∀ op ∈ l, op_ty op ≠ u) :
    (run_ops s r l).1.assigned u = s.assigned u := by
  induction l generalizing s r with
  | nil => rfl
  | cons op ops ih =>
    simp only [run_ops]
    rw [ih _ _ fun q hq => h q (List.mem_cons_of_mem op hq),
      run_op_assigned_ne s r op u (h op (List.mem_cons_self op ops))]

/-- Claim C3: registering `a` and then `b` for the same type `t` (each
via any of `set`, `emplace` or `set_ptr`) makes `get_ptr<t>()` return
`b`; and for a type `u` on which no registration was ever performed on
any registry (no operation in the program history `l` mentions `u`),
`get_ptr<u>()` returns null on every registry. -/
theorem registry_overwrite_and_missing (s : TIState) (r r1 r2 : Resources)
    (t a b u : Nat) (oA oB : RegOp) (l : List RegOp)
    (hwf : TIWf s)
    (hA : registers oA t a) (hB : registers oB t b)
    (hu : ∀ op ∈ l, op_ty op ≠ u) :
    get_ptr (run_ops s r [oA, oB]).1 (run_ops s r [oA, oB]).2 t = some b ∧
    get_ptr (run_ops TIState.init r1 l).1 r2 u = none := by
  constructor
  · simp only [run_ops]
    exact get_ptr_run_op _ _ t b oB hB (run_op_wf s r oA hwf)
  · have ha : (run_ops TIState.init r1 l).1.assigned u = 0 := by
      rw [run_ops_assigned_ne TIState.init r1 l u hu]
      rfl
    simp [get_ptr, ha]

theorem registry_overwrite_and_missing_witness :
    get_ptr
      (run_ops TIState.init Resources.init
        [RegOp.set_ptr_op 5 10, RegOp.emplace_op 5 20]).1
      (run_ops TIState.init Resources.init
        [RegOp.set_ptr_op 5 10, RegOp.emplace_op 5 20]).2 5 = some 20 ∧
    get_ptr (run_ops TIState.init Resources.init [RegOp.set_op 4 11]).1
      ⟨[none, some 9], [3]⟩ 7 = none :=
  registry_overwrite_and_missing TIState.init Resources.init Resources.init
    ⟨[none, some 9], [3]⟩ 5 10 20 7 (.set_ptr_op 5 10) (.emplace_op 5 20)
    [RegOp.set_op 4 11] tiwf_init (by decide) (by decide) (by decide)

/-- Claim C4: for a fresh registry in which the owned values are
constructed in the order given by the operation sequence `l` (via `set`
or `emplace`; `set_ptr` owns nothing), destroying the registry invokes
the destructors in exactly the reverse construction order. -/
theorem destruction_reverse_order (s : TIState) (l : List RegOp) :
    destroy_all (run_ops s Resources.init l).2.owned =
      ((l.map owned_of).flatten).reverse := by
  rw [destroy_all_eq_reverse, run_ops_owned]
  simp [Resources.init]

/-- Claim C5: overwriting an existing owned registration for `t` via
`set`/`emplace` does not destroy the prior value: the prior owned values
all keep their positions and exactly one new owned entry is appended;
only `t`'s lookup slot changes — lookups of any other type `u` are
unchanged; and at teardown all historical owned values are destroyed
together in reverse construction order. -/
theorem set_overwrite_frame (s : TIState) (r : Resources) (t vid u : Nat)
    (hwf : TIWf s) (hut : u ≠ t) :
    (Resources.set s r t vid).2.owned = r.owned ++ [vid] ∧
    get_ptr (Resources.set s r t vid).1 (Resources.set s r t vid).2 t
      = some vid ∧
    get_ptr (Resources.set s r t vid).1 (Resources.set s r t vid).2 u
      = get_ptr s r u ∧
    destroy_all (Resources.set s r t vid).2.owned = vid :: r.owned.reverse ∧
    (Resources.emplace s r t vid).2.owned = r.owned ++ [vid] ∧
    get_ptr (Resources.emplace s r t vid).1 (Resources.emplace s r t vid).2 u
      = get_ptr s r u := by
  refine ⟨rfl, ?_, ?_, ?_, rfl, ?_⟩
  · rw [get_ptr_set s r t vid t hwf, if_pos rfl]
  · rw [get_ptr_set s r t vid u hwf, if_neg hut]
  · show destroy_all (r.owned ++ [vid]) = vid :: r.owned.reverse
    rw [destroy_all_eq_reverse]
    simp
  · rw [get_ptr_emplace s r t vid u hwf, if_neg hut]

theorem set_overwrite_frame_witness :
    (Resources.set TIState.init ⟨[none, some 8], [2]⟩ 1 6).2.owned
      = [2] ++ [6] ∧
    get_ptr (Resources.set TIState.init ⟨[none, some 8], [2]⟩ 1 6).1
      (Resources.set TIState.init ⟨[none, some 8], [2]⟩ 1 6).2 1 = some 6 ∧
    get_ptr (Resources.set TIState.init ⟨[none, some 8], [2]⟩ 1 6).1
      (Resources.set TIState.init ⟨[none, some 8], [2]⟩ 1 6).2 4
      = get_ptr TIState.init ⟨[none, some 8], [2]⟩ 4 ∧
    destroy_all (Resources.set TIState.init ⟨[none, some 8], [2]⟩ 1 6).2.owned
      = 6 :: [2].reverse ∧
    (Resources.emplace TIState.init ⟨[none, some 8], [2]⟩ 1 6).2.owned
      = [2] ++ [6] ∧
    get_ptr (Resources.emplace TIState.init ⟨[none, some 8], [2]⟩ 1 6).1
      (Resources.emplace TIState.init ⟨[none, some 8], [2]⟩ 1 6).2 4
      = get_ptr TIState.init ⟨[none, some 8], [2]⟩ 4 :=
  set_overwrite_frame TIState.init ⟨[none, some 8], [2]⟩ 1 6 4 tiwf_init
    (by decide)

/-- Claim C6: move construction transfers all lookup bindings and all
ownership — lookups on the moved-to registry coincide with lookups on the
original — and leaves the moved-from registry empty, so destroying it
runs no destructors, while destroying the moved-to registry destroys the
owned values exactly once each, in reverse construction order. -/
theorem move_ctor_transfer (s : TIState) (r : Resources) (u : Nat) :
    get_ptr s (move_ctor r).1 u = get_ptr s r u ∧
    (move_ctor r).2.owned = [] ∧
    (move_ctor r).2.pointers = [] ∧
    destroy_all (move_ctor r).2.owned = [] ∧
    destroy_all (move_ctor r).1.owned = r.owned.reverse := by
  refine ⟨rfl, rfl, rfl, destroy_all_nil, ?_⟩
  rw [destroy_all_eq_reverse]
  rfl

/-- Claim C7: the bounds guard makes `get_ptr` total — the raw table
access it guards is always in bounds, and it merely returns the slot
value, modifying nothing; `set`/`emplace` fail exactly when the allocator
cannot satisfy the construction request (`make_unique` returning null),
and such a failure happens before any mutation, so no partial
registration escapes (no post-state exists on failure). -/
theorem get_total_alloc_atomic (s : TIState) (r : Resources) (t vid : Nat) :
    (get_ptr_checked s r t).isSome = true ∧
    get_ptr_checked s r t = some (get_ptr s r t) ∧
    Resources.set_checked s r t vid false = none ∧
    Resources.set_checked s r t vid true = some (Resources.set s r t vid) ∧
    Resources.emplace_checked s r t vid false = none ∧
    Resources.emplace_checked s r t vid true
      = some (Resources.emplace s r t vid) := by
  have hck : get_ptr_checked s r t = some (get_ptr s r t) := by
    simp only [get_ptr_checked, get_ptr]
    by_cases h : s.assigned t = 0 ∨ r.pointers.length ≤ s.assigned t
    · rw [if_pos h, if_pos h]
    · rw [if_neg h, if_neg h]
      have hlt : s.assigned t < r.pointers.length := by omega
      rw [List.getElem?_eq_getElem hlt]
      rfl
  refine ⟨?_, hck, rfl, rfl, rfl, rfl⟩
  rw [hck]
  rfl

/-! ## Task bindings (`task_func.h`) -/

/-- `ResourceTraits<T*>::get_ptr` and `ResourceTraits<const T*>::get_ptr`:
both fetch the pointer from the global registry and ignore the local
one. -/
def trait_get_ptr (s : TIState) (resources local_resources : Resources) :
    Param → Option Nat
  | .mut_ptr t => get_ptr s resources t
  | .const_ptr t => get_ptr s resources t

/-- `TaskFunc::on_exec`: resolves every parameter via its trait against
the supplied registry and the binding's local registry, and invokes the
callable with the resolved pointers in parameter order. Returns the
argument list passed to the callable and the registry (which the
resolution never mutates). -/
def on_exec (s : TIState) (resources local_resources : Resources)
    (ps : List Param) : List (Option Nat) × Resources :=
  (ps.map (trait_get_ptr s resources local_resources), resources)

/-- Claim C9: executing a binding whose parameter `i` is `t*` or
`const t*` against a registry that does not resolve `t` passes null for
that parameter into the callable unchanged — no error is raised and the
registry is not modified — and repeated `exec` calls on the same binding
and registry behave identically. -/
theorem exec_null_passthrough (s : TIState) (r lr : Resources)
    (ps : List Param) (t i : Nat)
    (hi : ps[i]? = some (.mut_ptr t) ∨ ps[i]? = some (.const_ptr t))
    (hmiss : get_ptr s r t = none) :
    (on_exec s r lr ps).1[i]? = some none ∧
    (on_exec s r lr ps).2 = r ∧
    on_exec s (on_exec s r lr ps).2 lr ps = on_exec s r lr ps := by
  refine ⟨?_, rfl, rfl⟩
  simp only [on_exec, List.getElem?_map]
  rcases hi with h | h <;> rw [h] <;> simp [trait_get_ptr, hmiss]

theorem exec_null_passthrough_witness :
    (on_exec TIState.init Resources.init Resources.init
      [Param.mut_ptr 4]).1[0]? = some none ∧
    (on_exec TIState.init Resources.init Resources.init
      [Param.mut_ptr 4]).2 = Resources.init ∧
    on_exec TIState.init
      (on_exec TIState.init Resources.init Resources.init
        [Param.mut_ptr 4]).2 Resources.init [Param.mut_ptr 4]
      = on_exec TIState.init Resources.init Resources.init [Param.mut_ptr 4] :=
  exec_null_passthrough TIState.init Resources.init Resources.init
    [Param.mut_ptr 4] 4 0 (Or.inl (by decide)) (by decide)

/-- Claim C10 counterexample: in `operator=(Resources&&)` the swap that
publishes the source's bindings happens first and the target's old owned
values die only when the temporary does, at the end of the statement — so
for a target owning the single value 1 the event trace is adopt followed
by destroy, not destroy followed by adopt as the claim has it. -/
theorem move_assign_order_counterexample :
    (move_assign ⟨[none, some 10], [1]⟩ Resources.init).2.2
      = [MoveEvent.adopt, MoveEvent.destroy 1] ∧
    (move_assign ⟨[none, some 10], [1]⟩ Resources.init).2.2
      ≠ [MoveEvent.destroy 1, MoveEvent.adopt] := by
  have h : (move_assign ⟨[none, some 10], [1]⟩ Resources.init).2.2
      = [MoveEvent.adopt, MoveEvent.destroy 1] := by
    simp only [move_assign, move_ctor, Resources.swap]
    rw [destroy_all_eq_reverse]
    rfl
  refine ⟨h, ?_⟩
  rw [h]
  decide

/-- Claim C10 (amended): move-assigning a registry S into a registry T
that owns W1..Wm destroys W1..Wm during the assignment, exactly once each
and in reverse construction order Wm..W1, but only after T adopts S's
bindings (the swap with the temporary precedes the temporary's
destruction); after the assignment, lookups on T agree with lookups on S
— in particular they return S's pointers for S's types and null for T's
previously registered types that S does not hold — and S is left an
empty registry. -/
theorem move_assign_spec (s : TIState) (target source : Resources)
    (u : Nat) :
    (move_assign target source).2.2
      = MoveEvent.adopt :: (target.owned.reverse.map MoveEvent.destroy) ∧
    get_ptr s (move_assign target source).1 u = get_ptr s source u ∧
    (move_assign target source).2.1.owned = [] ∧
    (move_assign target source).2.1.pointers = [] := by
  refine ⟨?_, rfl, rfl, rfl⟩
  simp only [move_assign, move_ctor, Resources.swap]
  rw [destroy_all_eq_reverse]
